import Mathlib

/-!
Verification of the terminal front end of the justwatch-search web demo.

The definitions below are shallow embeddings of the JavaScript in
`demo.js` (terminal controller: tokenizer, dispatch, history, completion)
and the interactive Pyodide worker (runtime bridge: run queue, output
interception, exit-code mapping).  Each definition's doc comment names the
source function it embeds.  Definitions whose name ends in `Spec` are the
one exception: they transcribe the natural-language specification's words,
to be compared with the embedded code.
-/

namespace JustWatch

/-- The body of `splitArgs` in `demo.js`: the character-scanning loop with
state (current token `cur`, active quote `inQuote`, pending escape `esc`)
and the accumulated token list `args`.  The end-of-input branch mirrors the
two trailing lines `if (esc) cur += "\\"` and `if (cur !== "") args.push(cur)`. -/
def splitArgsGo : List Char → String → Option Char → Bool → List String → List String
  | [], cur, _, esc, args =>
    let cur2 := if esc then cur.push '\\' else cur
    if cur2 ≠ "" then args ++ [cur2] else args
  | ch :: rest, cur, inQuote, esc, args =>
    if esc then
      splitArgsGo rest (cur.push ch) inQuote false args
    else if ch = '\\' then
      splitArgsGo rest cur inQuote true args
    else if ch = '"' ∨ ch = '\x27' then
      match inQuote with
      | none => splitArgsGo rest cur (some ch) false args
      | some q =>
        if q = ch then splitArgsGo rest cur none false args
        else splitArgsGo rest (cur.push ch) inQuote false args
    else if ch = ' ' ∧ inQuote = none then
      if cur ≠ "" then splitArgsGo rest "" none false (args ++ [cur])
      else splitArgsGo rest cur inQuote false args
    else
      splitArgsGo rest (cur.push ch) inQuote false args

/-- `splitArgs` of `demo.js`: shell-like argument tokenizer. -/
def splitArgs (s : String) : List String :=
  splitArgsGo s.data "" none false []

/-- The specification's three pieces of tokenizer state plus the emitted
tokens: "current token buffer, active quote character (or none),
pending-escape flag". -/
structure ScanState where
  toks : List String
  buf : String
  quote : Option Char
  esc : Bool
deriving DecidableEq

/-- Emit the buffered token if it is nonempty ("empty tokens are never
emitted"). -/
def flushTok (st : ScanState) : ScanState :=
  if st.buf = "" then st else { st with toks := st.toks ++ [st.buf], buf := "" }

/-- One character of the tokenizer as the specification words it: a pending
escape appends the character literally; a backslash escapes the next
character; inside a quote the matching quote closes and the other kind is a
literal; outside a quote a quote opens, a space splits, anything else is
appended.  Splitting is on the space character (the code splits only
on `" "`, not on other whitespace). -/
def scanStep (st : ScanState) (c : Char) : ScanState :=
  if st.esc then { st with buf := st.buf.push c, esc := false }
  else if c = '\\' then { st with esc := true }
  else
    match st.quote with
    | some q =>
      if c = q then { st with quote := none }
      else { st with buf := st.buf.push c }
    | none =>
      if c = '"' ∨ c = '\x27' then { st with quote := some c }
      else if c = ' ' then flushTok st
      else { st with buf := st.buf.push c }

/-- End of input per the specification: "an unterminated escape at
end-of-input is preserved literally as a trailing backslash", then the
last token is emitted if nonempty. -/
def scanFinish (st : ScanState) : List String :=
  let st2 := if st.esc then { st with buf := st.buf.push '\\' } else st
  (flushTok st2).toks

/-- The tokenizer as the specification describes it, as a fold of
`scanStep` over the characters. -/
def splitArgsSpec (s : String) : List String :=
  scanFinish (s.data.foldl scanStep { toks := [], buf := "", quote := none, esc := false })

theorem splitArgsGo_eq_scan (l : List Char) :
    ∀ (args : List String) (cur : String) (q : Option Char) (esc : Bool),
    (q = none ∨ q = some '"' ∨ q = some '\x27') →
    splitArgsGo l cur q esc args =
      scanFinish (l.foldl scanStep ⟨args, cur, q, esc⟩) := by
  induction l with
  | nil =>
    intro args cur q esc _
    have hp : ¬ (cur.push '\\' = "") := by
      intro h
      have h2 : cur.data ++ ['\\'] = ([] : List Char) := congrArg String.data h
      simp at h2
    cases esc with
    | false => by_cases h : cur = "" <;> simp [splitArgsGo, scanFinish, flushTok, h]
    | true => simp [splitArgsGo, scanFinish, flushTok, hp]
  | cons ch rest ih =>
    intro args cur q esc hq
    rw [List.foldl_cons]
    cases esc with
    | true => exact ih args (cur.push ch) q false hq
    | false =>
      by_cases hbs : ch = '\\'
      · subst hbs
        exact ih args cur q true hq
      · rcases hq with hq | hq | hq
        · subst hq
          by_cases hdq : ch = '"'
          · subst hdq
            exact ih args cur (some '"') false (Or.inr (Or.inl rfl))
          · by_cases hsq : ch = '\x27'
            · subst hsq
              exact ih args cur (some '\x27') false (Or.inr (Or.inr rfl))
            · by_cases hsp : ch = ' '
              · subst hsp
                by_cases hcur : cur = ""
                · subst hcur
                  exact ih args "" none false (Or.inl rfl)
                · have hl : splitArgsGo (' ' :: rest) cur none false args
                      = splitArgsGo rest "" none false (args ++ [cur]) := by
                    simp [splitArgsGo, hcur]
                  have hstep : scanStep ⟨args, cur, none, false⟩ ' '
                      = ⟨args ++ [cur], "", none, false⟩ := by
                    simp [scanStep, flushTok, hcur]
                  rw [hl, hstep]
                  exact ih (args ++ [cur]) "" none false (Or.inl rfl)
              · have hquote : ¬ (ch = '"' ∨ ch = '\x27') := by
                  rintro (h | h)
                  · exact hdq h
                  · exact hsq h
                have hl : splitArgsGo (ch :: rest) cur none false args
                    = splitArgsGo rest (cur.push ch) none false args := by
                  simp [splitArgsGo, hbs, hquote, hsp]
                have hstep : scanStep ⟨args, cur, none, false⟩ ch
                    = ⟨args, cur.push ch, none, false⟩ := by
                  simp [scanStep, hbs, hquote, hsp]
                rw [hl, hstep]
                exact ih args (cur.push ch) none false (Or.inl rfl)
        · subst hq
          by_cases hdq : ch = '"'
          · subst hdq
            exact ih args cur none false (Or.inl rfl)
          · by_cases hsq : ch = '\x27'
            · subst hsq
              exact ih args (cur.push '\x27') (some '"') false (Or.inr (Or.inl rfl))
            · have hl : splitArgsGo (ch :: rest) cur (some '"') false args
                  = splitArgsGo rest (cur.push ch) (some '"') false args := by
                simp [splitArgsGo, hbs, hdq, hsq]
              have hstep : scanStep ⟨args, cur, some '"', false⟩ ch
                  = ⟨args, cur.push ch, some '"', false⟩ := by
                simp [scanStep, hbs, hdq]
              rw [hl, hstep]
              exact ih args (cur.push ch) (some '"') false (Or.inr (Or.inl rfl))
        · subst hq
          by_cases hsq : ch = '\x27'
          · subst hsq
            exact ih args cur none false (Or.inl rfl)
          · by_cases hdq : ch = '"'
            · subst hdq
              exact ih args (cur.push '"') (some '\x27') false (Or.inr (Or.inr rfl))
            · have hl : splitArgsGo (ch :: rest) cur (some '\x27') false args
                  = splitArgsGo rest (cur.push ch) (some '\x27') false args := by
                simp [splitArgsGo, hbs, hdq, hsq]
              have hstep : scanStep ⟨args, cur, some '\x27', false⟩ ch
                  = ⟨args, cur.push ch, some '\x27', false⟩ := by
                simp [scanStep, hbs, hsq]
              rw [hl, hstep]
              exact ih args (cur.push ch) (some '\x27') false (Or.inr (Or.inr rfl))

theorem empty_not_mem_splitArgsGo (l : List Char) :
    ∀ (args : List String) (cur : String) (q : Option Char) (esc : Bool),
    ("" ∈ args → False) → ("" ∈ splitArgsGo l cur q esc args → False) := by
  induction l with
  | nil =>
    intro args cur q esc hargs hmem
    simp only [splitArgsGo] at hmem
    split at hmem
    · split at hmem
      · rcases List.mem_append.1 hmem with h | h
        · exact hargs h
        · rename_i hne
          simp only [List.mem_singleton] at h
          exact hne h.symm
      · exact hargs hmem
    · split at hmem
      · rcases List.mem_append.1 hmem with h | h
        · exact hargs h
        · rename_i hne
          simp only [List.mem_singleton] at h
          exact hne h.symm
      · exact hargs hmem
  | cons ch rest ih =>
    intro args cur q esc hargs hmem
    simp only [splitArgsGo] at hmem
    split at hmem
    · exact ih _ _ _ _ hargs hmem
    · split at hmem
      · exact ih _ _ _ _ hargs hmem
      · split at hmem
        · split at hmem
          · exact ih _ _ _ _ hargs hmem
          · split at hmem
            · exact ih _ _ _ _ hargs hmem
            · exact ih _ _ _ _ hargs hmem
        · split at hmem
          · split at hmem
            · refine ih _ _ _ _ ?_ hmem
              intro h
              rcases List.mem_append.1 h with h | h
              · exact hargs h
              · rename_i hne _
                simp only [List.mem_singleton] at h
                exact hne h.symm
            · exact ih _ _ _ _ hargs hmem
          · exact ih _ _ _ _ hargs hmem

theorem empty_not_mem_splitArgs (s : String) : "" ∈ splitArgs s → False :=
  empty_not_mem_splitArgsGo s.data [] "" none false (fun h => by simp at h)

/-- C1 counterexample: the claim fails as stated.  First, the code splits
only on the space character, so unquoted whitespace such as a tab does not
split a token.  Second, in the claimed example the apostrophe of `it's`
opens a single quote that is never closed, so by the claim's own rules the
unterminated quote consumes the rest of the string as one token with the
double quotes kept literally; the result is not `[its, a, test]`. -/
theorem c1_split_args_claim_false :
    (splitArgs "a\tb" = ["a", "b"] → False) ∧
    (splitArgs "it\x27s \"a\" test" = ["its", "a", "test"] → False) := by
  constructor <;> decide

/-- C1 (amended): the tokenizer follows the stated shell-like rules with
two corrections — only the space character splits tokens (not all
whitespace), and `split("it's \"a\" test")` is the single token
`its "a" test` (the apostrophe opens an unterminated single quote, and the
double quotes inside it are kept as literal characters).  `splitArgs`
agrees with the rule-by-rule transcription `splitArgsSpec` on every input;
the first two claimed examples hold as stated; an unterminated trailing
backslash is preserved literally; and empty tokens are never emitted. -/
theorem c1_split_args_amended :
    (∀ s : String, splitArgs s = splitArgsSpec s) ∧
    splitArgs "a \"b c\" d" = ["a", "b c", "d"] ∧
    splitArgs "a\\ b" = ["a b"] ∧
    splitArgs "it\x27s \"a\" test" = ["its \"a\" test"] ∧
    splitArgs "ab\\" = ["ab\\"] ∧
    (∀ s : String, "" ∈ splitArgs s → False) := by
  refine ⟨fun s => splitArgsGo_eq_scan s.data [] "" none false (Or.inl rfl),
    by decide, by decide, by decide, by decide, empty_not_mem_splitArgs⟩

/-- C1 witness: the amended theorem evaluated at concrete inputs — the
refinement at a sample string and the no-empty-token property at another. -/
theorem c1_split_args_witness :
    splitArgs "x \"y z\"" = splitArgsSpec "x \"y z\"" ∧
    ("" ∈ splitArgs "a  b" → False) :=
  ⟨c1_split_args_amended.1 "x \"y z\"", c1_split_args_amended.2.2.2.2.2 "a  b"⟩

/-- `String.prototype.startsWith(pre)`: is `pre` a prefix of `s`?  Stated
over the character lists (the code points), which is what the JavaScript
comparison decides for these ASCII command keys. -/
def startsWith (s pre : String) : Bool := pre.data.isPrefixOf s.data

/-- The whitespace characters `String.prototype.trim` strips (ASCII part). -/
def jsSpace (c : Char) : Bool :=
  c == ' ' || c == '\t' || c == '\n' || c == '\r' || c == '\x0b' || c == '\x0c'

/-- `String.prototype.trim()`: strip whitespace from both ends. -/
def jsTrim (s : String) : String :=
  ⟨((s.data.dropWhile jsSpace).reverse.dropWhile jsSpace).reverse⟩

/-- `String.prototype.replace(pat, "")` with a plain-string pattern deletes
only the first occurrence of `pat`. -/
def replaceFirstAux (pat : List Char) : List Char → List Char
  | [] => []
  | c :: rest =>
    if pat.isPrefixOf (c :: rest) then (c :: rest).drop pat.length
    else c :: replaceFirstAux pat rest

/-- `command.replace(key, "")` of `demo.js`. -/
def jsReplaceFirst (s pat : String) : String :=
  ⟨replaceFirstAux pat.data s.data⟩

/-- The registry `TERMINAL_COMMANDS` of `demo.js` as an insertion-ordered
association list of (key, description); `for (const key in ...)` visits
these string keys in insertion order.  The action callables are identified
by their registry entry. -/
def TERMINAL_COMMANDS : List (String × String) :=
  [("help", "Show this help message"),
   ("clear", "Clear the terminal output"),
   ("python just_watch_search.py", "Run the JustWatch search script")]

/-- The scan loop at the top of `runTerminalCommand`: the first registry
entry, in declaration order, whose key is a prefix of the typed command. -/
def findCommand {α : Type} : List (String × α) → String → Option (String × α)
  | [], _ => none
  | (k, a) :: rest, command =>
    if startsWith command k then some (k, a) else findCommand rest command

/-- The controller's mutable state: `commandHistory`, `historyIndex`, and
the input element's `value`. -/
structure TermState where
  history : List String
  historyIndex : Int
  value : String
deriving DecidableEq

/-- Page-load state: `commandHistory = []`, `historyIndex = -1`, empty line. -/
def initTerm : TermState := ⟨[], -1, ""⟩

/-- The two lines `runTerminalCommand` appends when no registry key
matches. -/
def unknownLines (command : String) : List String :=
  ["Unknown command: " ++ command,
   "Type \"help\" to see the list of available commands."]

/-- `runTerminalCommand` of `demo.js`: resolve the first prefix-matching
registry entry.  On a match: push the raw command onto the history, reset
the browse cursor to the fresh position (`history.length`), tokenize the
argument text (the key's first occurrence removed, then trimmed), echo the
command, clear the input line and invoke the action with the tokens.  On no
match: emit the unknown-command message plus the help hint and invoke
nothing.  Result: (state after, appended output lines, invoked action with
its argument tokens). -/
def runTerminalCommand {α : Type} (reg : List (String × α)) (s : TermState)
    (command : String) : TermState × List String × Option (α × List String) :=
  match findCommand reg command with
  | some (k, a) =>
    let history2 := s.history ++ [command]
    let args := splitArgs (jsTrim (jsReplaceFirst command k))
    ({ history := history2, historyIndex := (history2.length : Int), value := "" },
     ["$ " ++ command], some (a, args))
  | none => (s, unknownLines command, none)

/-- The Enter branch of the `keydown` handler in `demo.js`: trim the input
line; an empty trimmed command does nothing at all, otherwise the command
runs and the input line is cleared afterwards. -/
def submitLine {α : Type} (reg : List (String × α)) (s : TermState) :
    TermState × List String × Option (α × List String) :=
  let cmd := jsTrim s.value
  if cmd = "" then (s, [], none)
  else
    let r := runTerminalCommand reg s cmd
    ({ r.1 with value := "" }, r.2.1, r.2.2)

/-- Typing a line into the input field and pressing Enter. -/
def submitInput {α : Type} (reg : List (String × α)) (s : TermState)
    (typed : String) : TermState :=
  (submitLine reg { s with value := typed }).1

/-- A session: a sequence of typed-and-submitted input lines. -/
def submitAll {α : Type} (reg : List (String × α)) (s : TermState)
    (ts : List String) : TermState :=
  ts.foldl (submitInput reg) s

/-- A submitted input dispatches successfully when its trimmed line is
nonempty and some registry key is a prefix of it. -/
def dispatchSucceeds {α : Type} (reg : List (String × α)) (typed : String) : Bool :=
  !(jsTrim typed == "") && (findCommand reg (jsTrim typed)).isSome

theorem findCommand_some_spec {α : Type} :
    ∀ (reg : List (String × α)) (command : String) (k : String) (a : α),
    findCommand reg command = some (k, a) →
    startsWith command k = true ∧
    ∃ pre post, reg = pre ++ (k, a) :: post ∧
      ∀ p ∈ pre, startsWith command p.1 = false := by
  intro reg
  induction reg with
  | nil =>
    intro command k a h
    simp [findCommand] at h
  | cons p rest ih =>
    intro command k a h
    obtain ⟨k0, a0⟩ := p
    cases hs : startsWith command k0 with
    | true =>
      simp only [findCommand, hs, if_pos] at h
      obtain ⟨hk, ha⟩ := Prod.mk.injEq .. ▸ Option.some.injEq .. ▸ h
      subst hk
      subst ha
      exact ⟨hs, [], rest, rfl, by simp⟩
    | false =>
      simp only [findCommand, hs, Bool.false_eq_true, if_false] at h
      obtain ⟨h1, pre, post, hre, hpre⟩ := ih command k a h
      refine ⟨h1, (k0, a0) :: pre, post, by simp [hre], ?_⟩
      intro q hq
      rcases List.mem_cons.1 hq with hq | hq
      · subst hq
        exact hs
      · exact hpre q hq

theorem findCommand_none_spec {α : Type} :
    ∀ (reg : List (String × α)) (command : String),
    findCommand reg command = none →
    ∀ p ∈ reg, startsWith command p.1 = false := by
  intro reg
  induction reg with
  | nil =>
    intro command _ p hp
    simp at hp
  | cons p0 rest ih =>
    intro command h q hq
    obtain ⟨k0, a0⟩ := p0
    cases hs : startsWith command k0 with
    | true => simp [findCommand, hs] at h
    | false =>
      simp only [findCommand, hs, Bool.false_eq_true, if_false] at h
      rcases List.mem_cons.1 hq with hq | hq
      · subst hq
        exact hs
      · exact ih command h q hq

/-- C2: for every registry and typed input, dispatch resolves to exactly
the first registry entry, in declaration order, whose key is a prefix of
the input; when no registry key is a prefix, `runTerminalCommand` emits the
unknown-command message plus the hint to run help and invokes no action. -/
theorem c2_dispatch_first_prefix {α : Type} (reg : List (String × α))
    (s : TermState) (command : String) :
    (∀ k a, findCommand reg command = some (k, a) →
      startsWith command k = true ∧
      ∃ pre post, reg = pre ++ (k, a) :: post ∧
        ∀ p ∈ pre, startsWith command p.1 = false) ∧
    (findCommand reg command = none →
      (∀ p ∈ reg, startsWith command p.1 = false) ∧
      runTerminalCommand reg s command = (s, unknownLines command, none)) := by
  refine ⟨fun k a h => findCommand_some_spec reg command k a h, fun h => ?_⟩
  exact ⟨findCommand_none_spec reg command h, by simp [runTerminalCommand, h]⟩

theorem submitInput_success {α : Type} (reg : List (String × α)) (s : TermState)
    (typed : String) (h : dispatchSucceeds reg typed = true) :
    (submitInput reg s typed).history = s.history ++ [jsTrim typed] ∧
    (submitInput reg s typed).historyIndex =
      ((submitInput reg s typed).history.length : Int) := by
  have hne : ¬ (jsTrim typed = "") := by
    intro hz
    simp [dispatchSucceeds, hz] at h
  have hsome : (findCommand reg (jsTrim typed)).isSome = true := by
    simp [dispatchSucceeds, hne] at h
    exact h
  obtain ⟨⟨k, a⟩, hk⟩ := Option.isSome_iff_exists.1 hsome
  simp [submitInput, submitLine, runTerminalCommand, hne, hk]

theorem submitInput_failure {α : Type} (reg : List (String × α)) (s : TermState)
    (typed : String) (h : dispatchSucceeds reg typed = false) :
    (submitInput reg s typed).history = s.history ∧
    (submitInput reg s typed).historyIndex = s.historyIndex := by
  by_cases hz : jsTrim typed = ""
  · simp [submitInput, submitLine, hz]
  · have hnone : findCommand reg (jsTrim typed) = none := by
      simp [dispatchSucceeds, hz] at h
      exact Option.not_isSome_iff_eq_none.1 (by simp [h])
    simp [submitInput, submitLine, runTerminalCommand, hz, hnone]

theorem submitAll_history_length {α : Type} (reg : List (String × α)) :
    ∀ (ts : List String) (s : TermState),
    (submitAll reg s ts).history.length =
      s.history.length + ts.countP (dispatchSucceeds reg) := by
  intro ts
  induction ts with
  | nil => intro s; simp [submitAll]
  | cons t rest ih =>
    intro s
    have hstep : (submitInput reg s t).history.length =
        s.history.length + (if dispatchSucceeds reg t then 1 else 0) := by
      cases h : dispatchSucceeds reg t with
      | true => simp [(submitInput_success reg s t h).1]
      | false => simp [(submitInput_failure reg s t h).1]
    have : submitAll reg s (t :: rest) = submitAll reg (submitInput reg s t) rest := by
      simp [submitAll]
    rw [this, ih (submitInput reg s t), hstep, List.countP_cons]
    cases h : dispatchSucceeds reg t <;> (simp [h]; try omega)

/-- C7: the command history grows by exactly one entry per successful
dispatch and by none per failed or blank submission — starting from the
initial state, after a session the history length is the number of
successful dispatches — and each successful dispatch resets the browse
cursor to the fresh position (`historyIndex = history.length`). -/
theorem c7_history_invariant {α : Type} (reg : List (String × α)) :
    (∀ ts : List String,
      (submitAll reg initTerm ts).history.length = ts.countP (dispatchSucceeds reg)) ∧
    (∀ (s : TermState) (typed : String), dispatchSucceeds reg typed = true →
      (submitInput reg s typed).history = s.history ++ [jsTrim typed] ∧
      (submitInput reg s typed).historyIndex =
        ((submitInput reg s typed).history.length : Int)) ∧
    (∀ (s : TermState) (typed : String), dispatchSucceeds reg typed = false →
      (submitInput reg s typed).history = s.history ∧
      (submitInput reg s typed).historyIndex = s.historyIndex) := by
  refine ⟨fun ts => ?_, submitInput_success reg, submitInput_failure reg⟩
  simpa [initTerm] using submitAll_history_length reg ts initTerm

/-- C7 witness: a concrete session against the real registry — `help`,
a blank line, an unknown command and `clear x` — grows the history by
exactly the two successful dispatches and leaves the cursor fresh. -/
theorem c7_history_witness :
    (submitAll TERMINAL_COMMANDS initTerm ["help", "   ", "frobnicate", "clear x"]).history.length
      = 2 ∧
    (submitInput TERMINAL_COMMANDS initTerm "help").history = [] ++ [jsTrim "help"] :=
  ⟨by
    rw [(c7_history_invariant TERMINAL_COMMANDS).1 ["help", "   ", "frobnicate", "clear x"]]
    decide,
   ((c7_history_invariant TERMINAL_COMMANDS).2.1 initTerm "help" (by decide)).1⟩

/-- C10: submitting the input line while it is empty or only whitespace is
a complete no-op: the state (history, browse cursor, input line) is
unchanged, no output line is emitted (no echo, no unknown-command message),
and no action is invoked. -/
theorem c10_blank_submit_noop {α : Type} (reg : List (String × α)) (s : TermState)
    (h : jsTrim s.value = "") :
    submitLine reg s = (s, [], none) := by
  simp [submitLine, h]

/-- C10 witness: the no-op evaluated on a whitespace-only line against the
real registry. -/
theorem c10_blank_submit_witness :
    submitLine TERMINAL_COMMANDS { history := ["help"], historyIndex := 1, value := "  \t " }
      = ({ history := ["help"], historyIndex := 1, value := "  \t " }, [], none) :=
  c10_blank_submit_noop TERMINAL_COMMANDS
    { history := ["help"], historyIndex := 1, value := "  \t " } (by decide)

/-- `commandHistory[historyIndex] || ""` of `demo.js`: the entry at the
index, or the empty string when the index is out of range (JavaScript
yields `undefined`, which `|| ""` collapses to the empty string; a stored
empty string collapses to itself). -/
def histAt (h : List String) (i : Int) : String :=
  if 0 ≤ i ∧ i < (h.length : Int) then h.getD i.toNat "" else ""

inductive ArrowKey
  | up
  | down
deriving DecidableEq

/-- The ArrowUp/ArrowDown branch of the `keydown` handler in `demo.js`:
a no-op when the history is empty; otherwise the index is first clamped to
the fresh position when out of range, Up decrements with a floor at 0,
Down increments, and moving past the newest entry empties the line and
marks the cursor fresh; the selected entry replaces the input line. -/
def navigate (s : TermState) (k : ArrowKey) : TermState :=
  if s.history.length = 0 then s
  else
    let len : Int := (s.history.length : Int)
    let i0 : Int := if s.historyIndex < 0 ∨ s.historyIndex > len then len else s.historyIndex
    match k with
    | .up =>
      let i := if i0 > 0 then i0 - 1 else i0
      { s with historyIndex := i, value := histAt s.history i }
    | .down =>
      if i0 < len - 1 then
        let i := i0 + 1
        { s with historyIndex := i, value := histAt s.history i }
      else
        { s with historyIndex := len, value := "" }

/-- Pressing ArrowUp once. -/
def navUp (s : TermState) : TermState := navigate s ArrowKey.up

theorem navigate_history (s : TermState) (k : ArrowKey) :
    (navigate s k).history = s.history := by
  cases k <;> simp only [navigate]
  repeat' split
  all_goals rfl

theorem navUp_bounds (s : TermState) (h : s.history ≠ []) :
    0 ≤ (navUp s).historyIndex ∧
    (navUp s).historyIndex ≤ (s.history.length : Int) - 1 := by
  have hlen : s.history.length ≠ 0 := by
    intro hz
    exact h (List.length_eq_zero.1 hz)
  have hpos : 1 ≤ (s.history.length : Int) := by
    have := Nat.pos_of_ne_zero hlen
    omega
  simp only [navUp, navigate, hlen, if_false]
  by_cases hr : s.historyIndex < 0 ∨ s.historyIndex > (s.history.length : Int) <;>
    simp only [hr, if_pos, if_neg, ite_true, ite_false] <;> split <;> omega

theorem navUp_step (s : TermState) (h : s.history ≠ [])
    (h0 : 0 ≤ s.historyIndex)
    (h1 : s.historyIndex ≤ (s.history.length : Int) - 1) :
    (navUp s).historyIndex =
      if s.historyIndex > 0 then s.historyIndex - 1 else s.historyIndex := by
  have hlen : s.history.length ≠ 0 := by
    intro hz
    exact h (List.length_eq_zero.1 hz)
  have hr : ¬ (s.historyIndex < 0 ∨ s.historyIndex > (s.history.length : Int)) := by
    omega
  simp only [navUp, navigate, hlen, if_false, hr, ite_false]

theorem navUp_iter_zero (s : TermState) (h : s.history ≠ []) :
    ∀ (k : Nat), 0 ≤ s.historyIndex →
    s.historyIndex ≤ (s.history.length : Int) - 1 →
    s.historyIndex ≤ (k : Int) →
    (navUp^[k] s).historyIndex = 0 := by
  intro k
  induction k generalizing s with
  | zero =>
    intro h0 h1 hk
    simp only [Function.iterate_zero, id]
    omega
  | succ k ih =>
    intro h0 h1 hk
    rw [Function.iterate_succ_apply]
    have hh : (navUp s).history = s.history := navigate_history s ArrowKey.up
    have hstep := navUp_step s h h0 h1
    refine ih (navUp s) (by rw [hh]; exact h) ?_ ?_ ?_ <;> rw [hstep] <;> try rw [hh]
    all_goals split <;> omega

/-- C8: history navigation — both arrow keys are no-ops on an empty
history; from the fresh cursor, Up then Down restores the empty input line
and the fresh cursor; Up has a floor at index 0 and repeated Up presses
stabilize at index 0; and Down at or past the newest entry empties the
line and marks the cursor fresh. -/
theorem c8_history_navigation :
    (∀ (s : TermState) (k : ArrowKey), s.history = [] → navigate s k = s) ∧
    (∀ s : TermState, s.history ≠ [] →
      s.historyIndex = (s.history.length : Int) →
      (navigate (navigate s ArrowKey.up) ArrowKey.down).value = "" ∧
      (navigate (navigate s ArrowKey.up) ArrowKey.down).historyIndex
        = (s.history.length : Int)) ∧
    (∀ s : TermState, s.history ≠ [] → s.historyIndex = 0 →
      (navUp s).historyIndex = 0) ∧
    (∀ (s : TermState) (n : Nat), s.history ≠ [] →
      (navUp^[s.history.length + n] s).historyIndex = 0) ∧
    (∀ s : TermState, s.history ≠ [] →
      (s.history.length : Int) - 1 ≤ s.historyIndex →
      (navigate s ArrowKey.down).historyIndex = (s.history.length : Int) ∧
      (navigate s ArrowKey.down).value = "") := by
  refine ⟨?_, ?_, ?_, ?_, ?_⟩
  · intro s k hs
    cases k <;> simp [navigate, hs]
  · intro s h hf
    have hlen : s.history.length ≠ 0 := fun hz => h (List.length_eq_zero.1 hz)
    have hpos : 1 ≤ (s.history.length : Int) := by
      have := Nat.pos_of_ne_zero hlen
      omega
    have hr : ¬ (s.historyIndex < 0 ∨ s.historyIndex > (s.history.length : Int)) := by
      omega
    have hgt : s.historyIndex > 0 := by omega
    have h1 : navigate s ArrowKey.up =
        { s with historyIndex := s.historyIndex - 1,
                 value := histAt s.history (s.historyIndex - 1) } := by
      simp only [navigate, hlen, if_false, hr, ite_false, hgt, ite_true]
    rw [h1]
    have hcond : ¬ (s.historyIndex - 1 < 0 ∨
        s.historyIndex - 1 > (s.history.length : Int)) := by omega
    have hlt : ¬ (s.historyIndex - 1 < (s.history.length : Int) - 1) := by omega
    simp only [navigate, hlen, if_false, hcond, ite_false, hlt]
    exact ⟨trivial, trivial⟩
  · intro s h h0
    have hlen : s.history.length ≠ 0 := fun hz => h (List.length_eq_zero.1 hz)
    have hr : ¬ (s.historyIndex < 0 ∨ s.historyIndex > (s.history.length : Int)) := by
      have := Nat.pos_of_ne_zero hlen
      omega
    simp only [navUp, navigate, hlen, if_false, hr, ite_false]
    rw [h0]
    norm_num
  · intro s n h
    have hlen : s.history.length ≠ 0 := fun hz => h (List.length_eq_zero.1 hz)
    have hlen1 : 1 ≤ s.history.length := Nat.pos_of_ne_zero hlen
    have hsplit : s.history.length + n = (s.history.length - 1 + n) + 1 := by omega
    rw [hsplit, Function.iterate_succ_apply]
    have hh : (navUp s).history = s.history := navigate_history s ArrowKey.up
    obtain ⟨hb0, hb1⟩ := navUp_bounds s h
    refine navUp_iter_zero (navUp s) (by rw [hh]; exact h) _ hb0 (by rw [hh]; exact hb1) ?_
    omega
  · intro s h hge
    have hlen : s.history.length ≠ 0 := fun hz => h (List.length_eq_zero.1 hz)
    have hpos : 1 ≤ (s.history.length : Int) := by
      have := Nat.pos_of_ne_zero hlen
      omega
    by_cases hr : s.historyIndex < 0 ∨ s.historyIndex > (s.history.length : Int)
    · have hlt : ¬ ((s.history.length : Int) < (s.history.length : Int) - 1) := by omega
      simp only [navigate, hlen, if_false, hr, ite_true, hlt]
      exact ⟨trivial, trivial⟩
    · have hlt : ¬ (s.historyIndex < (s.history.length : Int) - 1) := by omega
      simp only [navigate, hlen, if_false, hr, ite_false, hlt]
      exact ⟨trivial, trivial⟩

/-- C8 witness: the navigation laws evaluated on a concrete two-entry
history — Up then Down from fresh restores the empty line, repeated Up
stabilizes at the oldest entry, Down past the newest marks the cursor
fresh, and both keys are no-ops on an empty history. -/
theorem c8_history_navigation_witness :
    navigate initTerm ArrowKey.up = initTerm ∧
    (navigate (navigate ⟨["a", "b"], 2, ""⟩ ArrowKey.up) ArrowKey.down).value = "" ∧
    (navUp^[5] (⟨["a", "b"], 2, ""⟩ : TermState)).historyIndex = 0 ∧
    (navigate ⟨["a", "b"], 2, "x"⟩ ArrowKey.down).historyIndex = 2 :=
  ⟨c8_history_navigation.1 initTerm ArrowKey.up rfl,
   (c8_history_navigation.2.1 ⟨["a", "b"], 2, ""⟩ (by decide) (by decide)).1,
   c8_history_navigation.2.2.2.1 ⟨["a", "b"], 2, ""⟩ 3 (by decide),
   (c8_history_navigation.2.2.2.2 ⟨["a", "b"], 2, "x"⟩ (by decide) (by decide)).1⟩

/-- The input field as the Tab branch sees it: the line text and the caret
position (`setSelectionRange` moves the caret). -/
structure InputView where
  value : String
  cursor : Nat
deriving DecidableEq

/-- The Tab branch of the `keydown` handler in `demo.js`: trim the input,
filter the registry keys that start with the trimmed text; exactly one
match replaces the line with that key and moves the caret to line end;
several matches print a header and each candidate on its own line, leaving
the line alone; no match does nothing.  Result: (input field after,
appended output lines). -/
def tabComplete {α : Type} (reg : List (String × α)) (s : InputView) :
    InputView × List String :=
  let currentInput := jsTrim s.value
  let matching := (reg.map Prod.fst).filter (fun k => startsWith k currentInput)
  if matching.length = 1 then
    let k := matching.headD ""
    ({ value := k, cursor := k.length }, [])
  else if 1 < matching.length then
    (s, "Possible completions:" :: matching.map (fun c => "- " ++ c))
  else
    (s, [])

/-- C9 counterexample: the claim fails as stated.  On the input `" "` no
registry key has the input text as a prefix, so the claim requires no
output and no change; but the code filters against the *trimmed* input
(empty), every key matches, and the candidate list is printed. -/
theorem c9_tab_completion_claim_false :
    ((TERMINAL_COMMANDS.map Prod.fst).filter (fun k => startsWith k " ") = []) ∧
    (tabComplete TERMINAL_COMMANDS { value := " ", cursor := 1 }).2 ≠ [] := by
  constructor <;> decide

/-- C9 (amended): tab completion computes the registry keys having the
*trimmed* input text as a prefix.  Exactly one match replaces the input
line with that key and moves the caret to line end; several matches print
a header line and then each candidate on its own line without altering the
input; no match produces no output and no change. -/
theorem c9_tab_completion {α : Type} (reg : List (String × α)) (s : InputView) :
    (∀ k, (reg.map Prod.fst).filter (fun k2 => startsWith k2 (jsTrim s.value)) = [k] →
      tabComplete reg s = ({ value := k, cursor := k.length }, [])) ∧
    (1 < ((reg.map Prod.fst).filter (fun k2 => startsWith k2 (jsTrim s.value))).length →
      tabComplete reg s =
        (s, "Possible completions:" ::
          ((reg.map Prod.fst).filter
            (fun k2 => startsWith k2 (jsTrim s.value))).map (fun c => "- " ++ c))) ∧
    ((reg.map Prod.fst).filter (fun k2 => startsWith k2 (jsTrim s.value)) = [] →
      tabComplete reg s = (s, [])) := by
  refine ⟨fun k hk => ?_, fun hlen => ?_, fun h0 => ?_⟩
  · simp [tabComplete, hk]
  · have hne : ¬ (((reg.map Prod.fst).filter
        (fun k2 => startsWith k2 (jsTrim s.value))).length = 1) := by omega
    simp [tabComplete, hne, hlen]
  · simp [tabComplete, h0]

/-- C9 witness: the amended behavior on the real registry — input `"pyth"`
completes to the full execution command, input `"helpm"` (no matching key)
does nothing, and the empty input lists every key. -/
theorem c9_tab_completion_witness :
    tabComplete TERMINAL_COMMANDS { value := "pyth", cursor := 4 } =
      ({ value := "python just_watch_search.py",
         cursor := "python just_watch_search.py".length }, []) ∧
    tabComplete TERMINAL_COMMANDS { value := "helpm", cursor := 5 } =
      ({ value := "helpm", cursor := 5 }, []) ∧
    tabComplete TERMINAL_COMMANDS { value := "", cursor := 0 } =
      ({ value := "", cursor := 0 },
       ["Possible completions:", "- help", "- clear", "- python just_watch_search.py"]) :=
  ⟨(c9_tab_completion TERMINAL_COMMANDS { value := "pyth", cursor := 4 }).1
      "python just_watch_search.py" (by decide),
   (c9_tab_completion TERMINAL_COMMANDS { value := "helpm", cursor := 5 }).2.2 (by decide),
   (c9_tab_completion TERMINAL_COMMANDS { value := "", cursor := 0 }).2.1 (by decide)⟩

theorem range'_zero_concat (m : Nat) : List.range' 0 m ++ [m] = List.range' 0 (m + 1) := by
  have h := List.range'_1_concat 0 m
  simpa using h.symm

theorem range'_cons (m k : Nat) : List.range' m (k + 1) = m :: List.range' (m + 1) k :=
  List.range'_succ m k 1

theorem range'_concat_one (m k : Nat) :
    List.range' m k ++ [m + k] = List.range' m (k + 1) := by
  have h := List.range'_1_concat m k
  exact h.symm

/-- The bridge-to-controller events C3 orders: `output` events and the
final `complete` of a run, tagged by the run's arrival number. -/
inductive BridgeEvent
  | output (run : Nat) (text : String)
  | complete (run : Nat)
deriving DecidableEq

def runIdOf : BridgeEvent → Nat
  | .output n _ => n
  | .complete n => n

/-- The interactive worker's queueing state: `commandQueue` and
`runningCommand` are the module-level variables of the worker source;
`activeRuns` records the runs whose `run(args)` call has started and not
yet resolved (the code keeps at most one — that is proven below, not
assumed); `log` is the stream of posted events; `arrivals` and `started`
record run numbers in message-arrival order and in execution-start
order. -/
structure WorkerState where
  commandQueue : List Nat
  runningCommand : Bool
  activeRuns : List Nat
  log : List BridgeEvent
  arrivals : List Nat
  started : List Nat
deriving DecidableEq

def initWorker : WorkerState := ⟨[], false, [], [], [], []⟩

/-- `processCommandQueue` of the interactive worker: return when a command
is running or the queue is empty; otherwise set the busy flag, shift the
queue's head and start executing it. -/
def processCommandQueue (s : WorkerState) : WorkerState :=
  match s.commandQueue with
  | [] => s
  | n :: rest =>
    if s.runningCommand then s
    else { s with runningCommand := true, commandQueue := rest,
                  activeRuns := s.activeRuns ++ [n],
                  started := s.started ++ [n] }

/-- What can happen to the worker, one step at a time: a `run` message
arrives (`onmessage` pushes the request — numbered by arrival — and calls
`processCommandQueue`); the active run posts an `output` event; or the
active run's `run()` call resolves (`run` posted `complete` last, then the
`finally` clears the busy flag and drains the queue).  `emit` and `finish`
do nothing when no run is active. -/
inductive WorkerLabel
  | recvRun
  | emit (text : String)
  | finish
deriving DecidableEq

def workerStep (s : WorkerState) : WorkerLabel → WorkerState
  | .recvRun =>
    let n := s.arrivals.length
    processCommandQueue
      { s with commandQueue := s.commandQueue ++ [n], arrivals := s.arrivals ++ [n] }
  | .emit t =>
    match s.activeRuns with
    | n :: _ => { s with log := s.log ++ [BridgeEvent.output n t] }
    | [] => s
  | .finish =>
    match s.activeRuns with
    | n :: rest =>
      processCommandQueue
        { s with log := s.log ++ [BridgeEvent.complete n], activeRuns := rest,
                 runningCommand := false }
    | [] => s

/-- Running the worker from its initial state through a sequence of
steps. -/
def workerExec (ls : List WorkerLabel) : WorkerState :=
  ls.foldl workerStep initWorker

/-- `Blocks d l`: `l` consists of the event blocks of `d` completed runs in
run order — each block is a string of `output` events of run `i` closed by
`complete i`. -/
inductive Blocks : Nat → List BridgeEvent → Prop
  | nil : Blocks 0 []
  | snoc (d : Nat) (l : List BridgeEvent) (outs : List String) :
      Blocks d l →
      Blocks (d + 1)
        (l ++ outs.map (BridgeEvent.output d) ++ [BridgeEvent.complete d])

/-- The worker-queue invariant: run numbers arrive as `0, 1, ...`; the
started runs are exactly the first `m` arrivals, in order; the queue holds
the not-yet-started arrivals in order; and the log is the blocks of the
completed runs followed by the output so far of the single active run. -/
def WInv (s : WorkerState) : Prop :=
  ∃ (total m : Nat) (doneLog : List BridgeEvent) (curOuts : List String),
    s.arrivals = List.range' 0 total ∧
    s.started = List.range' 0 m ∧
    m ≤ total ∧
    s.commandQueue = List.range' m (total - m) ∧
    ((s.runningCommand = false ∧ s.activeRuns = [] ∧ m = total ∧ curOuts = [] ∧
        Blocks m doneLog ∧ s.log = doneLog) ∨
     (s.runningCommand = true ∧ s.activeRuns = [m - 1] ∧ 0 < m ∧
        Blocks (m - 1) doneLog ∧
        s.log = doneLog ++ curOuts.map (BridgeEvent.output (m - 1))))

theorem processCommandQueue_busy (s : WorkerState) (h : s.runningCommand = true) :
    processCommandQueue s = s := by
  cases hq : s.commandQueue with
  | nil => simp [processCommandQueue, hq]
  | cons a r => simp [processCommandQueue, hq, h]

theorem wInv_step (s : WorkerState) (lab : WorkerLabel) (h : WInv s) :
    WInv (workerStep s lab) := by
  obtain ⟨total, m, doneLog, curOuts, ha, hst, hmt, hq, hcase⟩ := h
  cases lab with
  | recvRun =>
    have hn : s.arrivals.length = total := by rw [ha]; simp
    rcases hcase with ⟨hrun, hact, hmeq, hco, hblocks, hlog⟩ |
      ⟨hrun, hact, hmpos, hblocks, hlog⟩
    · subst hmeq
      have hqe : s.commandQueue = [] := by simpa using hq
      have hstep : workerStep s WorkerLabel.recvRun =
          { commandQueue := [], runningCommand := true,
            activeRuns := [m], log := s.log,
            arrivals := s.arrivals ++ [m],
            started := s.started ++ [m] } := by
        simp [workerStep, processCommandQueue, hn, hqe, hrun, hact]
      rw [hstep]
      refine ⟨m + 1, m + 1, doneLog, [], ?_, ?_, le_refl _, ?_,
        Or.inr ⟨rfl, ?_, ?_, ?_, ?_⟩⟩
      · show s.arrivals ++ [m] = List.range' 0 (m + 1)
        rw [ha]
        exact range'_zero_concat m
      · show s.started ++ [m] = List.range' 0 (m + 1)
        rw [hst]
        exact range'_zero_concat m
      · simp
      · simp
      · omega
      · simpa using hblocks
      · simpa using hlog
    · obtain ⟨k, rfl⟩ : ∃ k, total = m + k := ⟨total - m, by omega⟩
      simp only [Nat.add_sub_cancel_left] at hq
      have hstep : workerStep s WorkerLabel.recvRun =
          { s with commandQueue := s.commandQueue ++ [m + k],
                   arrivals := s.arrivals ++ [m + k] } := by
        have h1 : workerStep s WorkerLabel.recvRun =
            processCommandQueue
              { s with commandQueue := s.commandQueue ++ [s.arrivals.length],
                       arrivals := s.arrivals ++ [s.arrivals.length] } := rfl
        rw [h1, hn]
        exact processCommandQueue_busy _ hrun
      rw [hstep]
      refine ⟨m + k + 1, m, doneLog, curOuts, ?_, hst, by omega, ?_,
        Or.inr ⟨hrun, hact, hmpos, hblocks, hlog⟩⟩
      · show s.arrivals ++ [m + k] = List.range' 0 (m + k + 1)
        rw [ha]
        exact range'_zero_concat (m + k)
      · show s.commandQueue ++ [m + k] = List.range' m (m + k + 1 - m)
        rw [hq]
        have h2 : m + k + 1 - m = k + 1 := by omega
        rw [h2]
        exact range'_concat_one m k
  | emit t =>
    rcases hcase with ⟨hrun, hact, hmeq, hco, hblocks, hlog⟩ |
      ⟨hrun, hact, hmpos, hblocks, hlog⟩
    · have hstep : workerStep s (WorkerLabel.emit t) = s := by
        simp [workerStep, hact]
      rw [hstep]
      exact ⟨total, m, doneLog, curOuts, ha, hst, hmt, hq,
        Or.inl ⟨hrun, hact, hmeq, hco, hblocks, hlog⟩⟩
    · have hstep : workerStep s (WorkerLabel.emit t) =
          { s with log := s.log ++ [BridgeEvent.output (m - 1) t] } := by
        simp [workerStep, hact]
      rw [hstep]
      refine ⟨total, m, doneLog, curOuts ++ [t], ha, hst, hmt, hq,
        Or.inr ⟨hrun, hact, hmpos, hblocks, ?_⟩⟩
      show s.log ++ [BridgeEvent.output (m - 1) t] = _
      rw [hlog]
      simp
  | finish =>
    rcases hcase with ⟨hrun, hact, hmeq, hco, hblocks, hlog⟩ |
      ⟨hrun, hact, hmpos, hblocks, hlog⟩
    · have hstep : workerStep s WorkerLabel.finish = s := by
        simp [workerStep, hact]
      rw [hstep]
      exact ⟨total, m, doneLog, curOuts, ha, hst, hmt, hq,
        Or.inl ⟨hrun, hact, hmeq, hco, hblocks, hlog⟩⟩
    · obtain ⟨k, rfl⟩ : ∃ k, total = m + k := ⟨total - m, by omega⟩
      simp only [Nat.add_sub_cancel_left] at hq
      have hblocks2 : Blocks m (s.log ++ [BridgeEvent.complete (m - 1)]) := by
        rw [hlog]
        have hb := Blocks.snoc (m - 1) doneLog curOuts hblocks
        have hm1 : m - 1 + 1 = m := by omega
        rwa [hm1] at hb
      cases k with
      | zero =>
        have hqe : s.commandQueue = [] := by simpa using hq
        have hstep : workerStep s WorkerLabel.finish =
            { s with log := s.log ++ [BridgeEvent.complete (m - 1)],
                     activeRuns := [], runningCommand := false } := by
          simp [workerStep, hact, processCommandQueue, hqe]
        rw [hstep]
        refine ⟨m + 0, m, s.log ++ [BridgeEvent.complete (m - 1)], [],
          ha, hst, by omega, ?_, Or.inl ⟨rfl, rfl, by omega, rfl, hblocks2, rfl⟩⟩
        show s.commandQueue = List.range' m (m + 0 - m)
        rw [hqe]
        simp
      | succ k2 =>
        have hqc : s.commandQueue = m :: List.range' (m + 1) k2 := by
          rw [hq]
          exact range'_cons m k2
        have hstep : workerStep s WorkerLabel.finish =
            { s with log := s.log ++ [BridgeEvent.complete (m - 1)],
                     activeRuns := [m], runningCommand := true,
                     commandQueue := List.range' (m + 1) k2,
                     started := s.started ++ [m] } := by
          simp [workerStep, hact, processCommandQueue, hqc]
        rw [hstep]
        refine ⟨m + (k2 + 1), m + 1, s.log ++ [BridgeEvent.complete (m - 1)], [],
          ha, ?_, by omega, ?_, Or.inr ⟨rfl, ?_, by omega, ?_, ?_⟩⟩
        · show s.started ++ [m] = List.range' 0 (m + 1)
          rw [hst]
          exact range'_zero_concat m
        · show List.range' (m + 1) k2 = List.range' (m + 1) (m + (k2 + 1) - (m + 1))
          have h2 : m + (k2 + 1) - (m + 1) = k2 := by omega
          rw [h2]
        · simp
        · simpa using hblocks2
        · simp

theorem wInv_foldl : ∀ (ls : List WorkerLabel) (s : WorkerState),
    WInv s → WInv (ls.foldl workerStep s) := by
  intro ls
  induction ls with
  | nil => intro s h; exact h
  | cons lab rest ih =>
    intro s h
    exact ih _ (wInv_step s lab h)

theorem wInv_init : WInv initWorker :=
  ⟨0, 0, [], [], rfl, rfl, le_refl 0, rfl,
    Or.inl ⟨rfl, rfl, rfl, rfl, Blocks.nil, rfl⟩⟩

theorem wInv_exec (ls : List WorkerLabel) : WInv (workerExec ls) :=
  wInv_foldl ls initWorker wInv_init

theorem blocks_runId_lt (d : Nat) (l : List BridgeEvent) (h : Blocks d l) :
    ∀ e ∈ l, runIdOf e < d := by
  induction h with
  | nil =>
    intro e he
    simp at he
  | snoc d l outs hb ih =>
    intro e he
    rcases List.mem_append.1 he with he | he
    · rcases List.mem_append.1 he with he | he
      · exact Nat.lt_succ_of_lt (ih e he)
      · obtain ⟨t, ht, rfl⟩ := List.mem_map.1 he
        simp [runIdOf]
    · simp only [List.mem_singleton] at he
      subst he
      simp [runIdOf]

theorem pairwise_le_of_const {d : Nat} :
    ∀ (xs : List Nat), (∀ x ∈ xs, x = d) → xs.Pairwise (fun a b => a ≤ b)
  | [], _ => List.Pairwise.nil
  | x :: xs, h => by
    refine List.Pairwise.cons ?_
      (pairwise_le_of_const xs fun y hy => h y (List.mem_cons_of_mem x hy))
    intro y hy
    rw [h x (List.mem_cons_self x xs), h y (List.mem_cons_of_mem x hy)]

theorem blocks_sorted (d : Nat) (l : List BridgeEvent) (h : Blocks d l) :
    (l.map runIdOf).Pairwise (fun a b => a ≤ b) := by
  induction h with
  | nil => simp
  | snoc d l outs hb ih =>
    rw [List.map_append, List.map_append, List.append_assoc, List.pairwise_append]
    refine ⟨ih, ?_, ?_⟩
    · rw [List.pairwise_append]
      refine ⟨?_, ?_, ?_⟩
      · exact pairwise_le_of_const _ (by
          intro x hx
          obtain ⟨e, he, rfl⟩ := List.mem_map.1 hx
          obtain ⟨t, ht, rfl⟩ := List.mem_map.1 he
          rfl)
      · simp
      · intro a hga b hgb
        obtain ⟨e, he, rfl⟩ := List.mem_map.1 hga
        obtain ⟨t, ht, rfl⟩ := List.mem_map.1 he
        simp only [List.map_cons, List.map_nil, List.mem_singleton] at hgb
        subst hgb
        simp [runIdOf]
    · intro a hga b hgb
      obtain ⟨e, he, rfl⟩ := List.mem_map.1 hga
      have hlt := blocks_runId_lt _ _ hb e he
      rcases List.mem_append.1 hgb with hgb | hgb
      · obtain ⟨e2, he2, rfl⟩ := List.mem_map.1 hgb
        obtain ⟨t, ht, rfl⟩ := List.mem_map.1 he2
        exact Nat.le_of_lt hlt
      · simp only [List.map_cons, List.map_nil, List.mem_singleton] at hgb
        subst hgb
        omega

theorem range'_split (m total : Nat) (h : m ≤ total) :
    List.range' 0 total = List.range' 0 m ++ List.range' m (total - m) := by
  have hr := List.range'_append 0 m (total - m) 1
  simp only [Nat.one_mul, Nat.zero_add] at hr
  have h2 : total - m + m = total := by omega
  rw [h2] at hr
  exact hr.symm

/-- C3: the run queue keeps at most one run executing at any instant; runs
start in arrival order, with a request arriving while a run is active only
enqueued (FIFO: the arrivals are exactly the started runs followed by the
queued ones, in order); and the event log is the completed runs' blocks in
run order — each block all of that run's output followed by its
`complete` — followed by output of the single active run, so every output
of run N precedes `complete` of run N, which precedes any event of run
N+1 (the log's run numbers are monotone). -/
theorem c3_run_queue_exclusive (ls : List WorkerLabel) :
    (workerExec ls).activeRuns.length ≤ 1 ∧
    (workerExec ls).arrivals =
      (workerExec ls).started ++ (workerExec ls).commandQueue ∧
    ((workerExec ls).log.map runIdOf).Pairwise (fun a b => a ≤ b) ∧
    ∃ (d : Nat) (doneLog : List BridgeEvent) (curOuts : List String),
      Blocks d doneLog ∧
      (workerExec ls).log = doneLog ++ curOuts.map (BridgeEvent.output d) ∧
      ((workerExec ls).activeRuns = [d] ∨
        ((workerExec ls).activeRuns = [] ∧ curOuts = [])) := by
  obtain ⟨total, m, doneLog, curOuts, ha, hst, hmt, hq, hcase⟩ := wInv_exec ls
  have hfifo : (workerExec ls).arrivals =
      (workerExec ls).started ++ (workerExec ls).commandQueue := by
    rw [ha, hst, hq]
    exact range'_split m total hmt
  rcases hcase with ⟨hrun, hact, hmeq, hco, hblocks, hlog⟩ |
    ⟨hrun, hact, hmpos, hblocks, hlog⟩
  · refine ⟨by simp [hact], hfifo, ?_, m, doneLog, [], hblocks, by simp [hlog],
      Or.inr ⟨hact, rfl⟩⟩
    rw [hlog]
    exact blocks_sorted m doneLog hblocks
  · refine ⟨by simp [hact], hfifo, ?_, m - 1, doneLog, curOuts, hblocks, hlog,
      Or.inl hact⟩
    rw [hlog, List.map_append, List.pairwise_append]
    refine ⟨blocks_sorted (m - 1) doneLog hblocks, ?_, ?_⟩
    · exact pairwise_le_of_const _ (by
        intro x hx
        obtain ⟨e, he, rfl⟩ := List.mem_map.1 hx
        obtain ⟨t, ht, rfl⟩ := List.mem_map.1 he
        rfl)
    · intro a hga b hgb
      obtain ⟨e, he, rfl⟩ := List.mem_map.1 hga
      have hlt := blocks_runId_lt (m - 1) doneLog hblocks e he
      obtain ⟨e2, he2, rfl⟩ := List.mem_map.1 hgb
      obtain ⟨t, ht, rfl⟩ := List.mem_map.1 he2
      exact Nat.le_of_lt hlt

/-- What can end the Python execution snippet of `run()` in the interactive
worker: a normal return of `just_watch_search.main()`, a `SystemExit`
carrying an optional code, an `EOFError`, a `KeyboardInterrupt`, or any
other uncaught exception with its message. -/
inductive PyOutcome
  | ret
  | sysExit (code : Option Int)
  | eofError
  | keyboardInterrupt
  | exc (msg : String)
deriving DecidableEq

/-- The `exit_code` computed by the `except` chain of the execution
snippet: normal return 0; `SystemExit` its carried code, 0 when it carries
none; `EOFError` 1; `KeyboardInterrupt` 130; any other exception 1. -/
def pyExitCode : PyOutcome → Int
  | .ret => 0
  | .sysExit (some c) => c
  | .sysExit none => 0
  | .eofError => 1
  | .keyboardInterrupt => 130
  | .exc _ => 1

/-- The lines the `except` handlers print through the still-installed
custom print: `KeyboardInterrupt` prints `Cancelled`, any other exception
prints `Error: {e}` (each as one chunk ending in the newline that
`custom_print` appends).  The traceback that `traceback.print_exc()`
additionally writes through the redirected stderr is runtime-produced text
and is not modeled. -/
def pyHandlerOutput : PyOutcome → List String
  | .keyboardInterrupt => ["Cancelled\n"]
  | .exc m => ["Error: " ++ m ++ "\n"]
  | _ => []

/-- The messages `run()` posts. -/
inductive WorkerMsg
  | output (text : String)
  | completeOk (exitCode : Int)
  | completeErr (error : String)
deriving DecidableEq

/-- Is the message a `complete` message? -/
def isCompleteMsg : WorkerMsg → Bool
  | .output _ => false
  | .completeOk _ => true
  | .completeErr _ => true

/-- The operations `run()` performs against the runtime and the controller,
in order: (un)registering the `output_handler` JS module, installing or
restoring the print/stdout/stderr/input primitives inside Python, and
posting a message. -/
inductive BridgeOp
  | registerModule
  | unregisterModule
  | patchPrimitives
  | restorePrimitives
  | post (m : WorkerMsg)
deriving DecidableEq

/-- How one call of `run()` can go: both `runPythonAsync` calls resolve and
the Python-level outcome is `o` (all listed exceptions are caught by the
snippet itself); or the first, interception-installing call rejects; or the
second, executing call rejects at the JavaScript level.  In the two
rejecting scenarios the `catch` block runs the guarded restore snippet and
unregisters the module before posting failure. -/
inductive RunScenario
  | pyDone (o : PyOutcome)
  | setupFail (msg : String)
  | execFail (msg : String)
deriving DecidableEq

/-- The ordered operations of one `run(args)` call of the interactive
worker, per scenario.  Every path begins with the defensive unregister and
the registration of the fresh `output_handler`; the `pyDone` path patches,
runs (emitting the handler prints), restores inside the same snippet,
unregisters and posts `complete {success: true, exit_code}`; the failure
paths attempt the guarded restore, unregister and post
`complete {success: false, error}`. -/
def runTrace : RunScenario → List BridgeOp
  | .pyDone o =>
    [BridgeOp.unregisterModule, BridgeOp.registerModule, BridgeOp.patchPrimitives]
      ++ (pyHandlerOutput o).map (fun t => BridgeOp.post (WorkerMsg.output t))
      ++ [BridgeOp.restorePrimitives, BridgeOp.unregisterModule,
          BridgeOp.post (WorkerMsg.completeOk (pyExitCode o))]
  | .setupFail m =>
    [BridgeOp.unregisterModule, BridgeOp.registerModule,
     BridgeOp.restorePrimitives, BridgeOp.unregisterModule,
     BridgeOp.post (WorkerMsg.completeErr m)]
  | .execFail m =>
    [BridgeOp.unregisterModule, BridgeOp.registerModule, BridgeOp.patchPrimitives,
     BridgeOp.restorePrimitives, BridgeOp.unregisterModule,
     BridgeOp.post (WorkerMsg.completeErr m)]

/-- The interception state the operations act on: whether the print/input
primitives are currently replaced and whether the `output_handler` module
is registered. -/
structure InterceptState where
  printPatched : Bool
  moduleRegistered : Bool
deriving DecidableEq

def cleanIntercept : InterceptState := ⟨false, false⟩

def applyOp (st : InterceptState) : BridgeOp → InterceptState
  | .registerModule => { st with moduleRegistered := true }
  | .unregisterModule => { st with moduleRegistered := false }
  | .patchPrimitives => { st with printPatched := true }
  | .restorePrimitives => { st with printPatched := false }
  | .post _ => st

def applyOps (st : InterceptState) (ops : List BridgeOp) : InterceptState :=
  ops.foldl applyOp st

/-- C4: the `complete` event's exit code follows the documented mapping —
`SystemExit` maps to its carried code (0 when it carries none, and e.g. a
graceful exit carrying 2 maps to exit code 2), `EOFError` to the fixed
failure code 1, `KeyboardInterrupt` to 130, and every other uncaught
exception to 1 with the exception's message surfaced as an output event
(`Error: {e}`); a normal return maps to 0. -/
theorem c4_exit_code_mapping (c : Int) (m : String) :
    (runTrace (RunScenario.pyDone (PyOutcome.sysExit (some c)))).getLast?
      = some (BridgeOp.post (WorkerMsg.completeOk c)) ∧
    (runTrace (RunScenario.pyDone (PyOutcome.sysExit none))).getLast?
      = some (BridgeOp.post (WorkerMsg.completeOk 0)) ∧
    (runTrace (RunScenario.pyDone PyOutcome.ret)).getLast?
      = some (BridgeOp.post (WorkerMsg.completeOk 0)) ∧
    (runTrace (RunScenario.pyDone PyOutcome.eofError)).getLast?
      = some (BridgeOp.post (WorkerMsg.completeOk 1)) ∧
    (runTrace (RunScenario.pyDone PyOutcome.keyboardInterrupt)).getLast?
      = some (BridgeOp.post (WorkerMsg.completeOk 130)) ∧
    (runTrace (RunScenario.pyDone (PyOutcome.exc m))).getLast?
      = some (BridgeOp.post (WorkerMsg.completeOk 1)) ∧
    BridgeOp.post (WorkerMsg.output ("Error: " ++ m ++ "\n"))
      ∈ runTrace (RunScenario.pyDone (PyOutcome.exc m)) := by
  refine ⟨?_, ?_, ?_, ?_, ?_, ?_, ?_⟩ <;>
    simp [runTrace, pyExitCode, pyHandlerOutput]

theorem applyOps_append (st : InterceptState) (l1 l2 : List BridgeOp) :
    applyOps st (l1 ++ l2) = applyOps (applyOps st l1) l2 :=
  List.foldl_append ..

theorem applyOps_output_posts (ts : List String) :
    ∀ st : InterceptState,
    applyOps st (ts.map (fun t => BridgeOp.post (WorkerMsg.output t))) = st := by
  induction ts with
  | nil => intro st; rfl
  | cons t rest ih => intro st; exact ih st

/-- C5: on every exit path of `run()` — normal return, Python-level fault,
or failure of either `runPythonAsync` call — the original primitives are
restored and the interception module is unregistered before `complete` is
posted: the trace ends with the single `complete` post, its prefix
contains the restore and the unregister and no `complete`, and the run
leaves the interception state clean from any starting state, so a run
after a faulting run proceeds exactly as from the clean state. -/
theorem c5_cleanup_restore (scen : RunScenario) (st : InterceptState) :
    applyOps st (runTrace scen) = cleanIntercept ∧
    (∃ pre last, runTrace scen = pre ++ [BridgeOp.post last] ∧
      isCompleteMsg last = true ∧
      BridgeOp.restorePrimitives ∈ pre ∧
      BridgeOp.unregisterModule ∈ pre ∧
      ∀ msg, BridgeOp.post msg ∈ pre → isCompleteMsg msg = false) ∧
    (∀ o : PyOutcome,
      applyOps (applyOps st (runTrace scen)) (runTrace (RunScenario.pyDone o)) =
        applyOps cleanIntercept (runTrace (RunScenario.pyDone o))) := by
  have hsplit : ∀ o : PyOutcome, runTrace (RunScenario.pyDone o) =
      ([BridgeOp.unregisterModule, BridgeOp.registerModule, BridgeOp.patchPrimitives]
        ++ (pyHandlerOutput o).map (fun t => BridgeOp.post (WorkerMsg.output t))
        ++ [BridgeOp.restorePrimitives, BridgeOp.unregisterModule])
      ++ [BridgeOp.post (WorkerMsg.completeOk (pyExitCode o))] := by
    intro o
    simp [runTrace]
  have h1 : applyOps st (runTrace scen) = cleanIntercept := by
    cases scen with
    | pyDone o =>
      rw [hsplit o, applyOps_append, applyOps_append, applyOps_append,
        applyOps_output_posts]
      rfl
    | setupFail m => rfl
    | execFail m => rfl
  refine ⟨h1, ?_, fun o => by rw [h1]⟩
  cases scen with
  | pyDone o =>
    refine ⟨[BridgeOp.unregisterModule, BridgeOp.registerModule, BridgeOp.patchPrimitives]
        ++ (pyHandlerOutput o).map (fun t => BridgeOp.post (WorkerMsg.output t))
        ++ [BridgeOp.restorePrimitives, BridgeOp.unregisterModule],
      WorkerMsg.completeOk (pyExitCode o), hsplit o, rfl, by simp, by simp, ?_⟩
    intro msg hm
    rcases List.mem_append.1 hm with hm | hm
    · rcases List.mem_append.1 hm with hm | hm
      · simp at hm
      · obtain ⟨t, ht, heq⟩ := List.mem_map.1 hm
        injection heq with heq2
        rw [← heq2]
        rfl
    · simp at hm
  | setupFail m =>
    refine ⟨[BridgeOp.unregisterModule, BridgeOp.registerModule,
        BridgeOp.restorePrimitives, BridgeOp.unregisterModule],
      WorkerMsg.completeErr m, rfl, rfl, by simp, by simp, ?_⟩
    intro msg hm
    simp at hm
  | execFail m =>
    refine ⟨[BridgeOp.unregisterModule, BridgeOp.registerModule,
        BridgeOp.patchPrimitives, BridgeOp.restorePrimitives, BridgeOp.unregisterModule],
      WorkerMsg.completeErr m, rfl, rfl, by simp, by simp, ?_⟩
    intro msg hm
    simp at hm

/-- The observable controller events around one dispatched execution
command, in program order (`demo.js`): the echo `appendOutput("$ " + cmd)`,
`input.value = ""`, `input.disabled = true`, the action posting the `run`
message to the worker, `input.disabled = false` after the awaited action
resolves, and later the handled worker messages (`output` appends a line,
`complete` sets `input.disabled = false`). -/
inductive UiEvent
  | echo (line : String)
  | clearValue
  | disableInput
  | postRun (args : List String)
  | enableInput
  | workerOutput (text : String)
  | workerComplete
deriving DecidableEq

/-- The timeline of one dispatched execution command: the five dispatch
steps of `runTerminalCommand` (the action `runJustWatchSearch` only posts
the `run` message and returns, so the `await` resolves at once), followed
by the run's streamed output and its completion.  `postMessage` is
asynchronous and the interactive thread finishes the dispatch handler
before any worker message is handled, so every worker event follows the
re-enabling of the input. -/
def execRunTimeline (command : String) (args : List String) (outs : List String) :
    List UiEvent :=
  [UiEvent.echo ("$ " ++ command), UiEvent.clearValue, UiEvent.disableInput,
   UiEvent.postRun args, UiEvent.enableInput]
    ++ outs.map UiEvent.workerOutput ++ [UiEvent.workerComplete]

/-- `input.disabled` after a sequence of controller events (initially
enabled). -/
def disabledAfter (es : List UiEvent) : Bool :=
  es.foldl
    (fun d e =>
      match e with
      | UiEvent.disableInput => true
      | UiEvent.enableInput => false
      | UiEvent.workerComplete => false
      | _ => d)
    false

/-- C6 counterexample: the claim fails as stated.  Dispatch a run whose
execution streams one output line: immediately before the streaming
output event — the run is dispatched and not complete — the input is
already re-enabled (`disabled = false`), because the awaited action
resolves as soon as the `run` message is posted, not when the run
completes. -/
theorem c6_input_disabled_claim_false :
    disabledAfter ((execRunTimeline "python just_watch_search.py batman" ["batman"]
      ["Searching...\n"]).take 5) = false ∧
    (execRunTimeline "python just_watch_search.py batman" ["batman"]
      ["Searching...\n"]).get? 5 = some (UiEvent.workerOutput "Searching...\n") := by
  constructor <;> rfl

theorem disabledAfter_append (l1 l2 : List UiEvent) :
    disabledAfter (l1 ++ l2) =
      l2.foldl
        (fun d e =>
          match e with
          | UiEvent.disableInput => true
          | UiEvent.enableInput => false
          | UiEvent.workerComplete => false
          | _ => d)
        (disabledAfter l1) :=
  List.foldl_append ..

theorem foldl_no_disable (l : List UiEvent)
    (h : ∀ e ∈ l, e ≠ UiEvent.disableInput) :
    l.foldl
      (fun d e =>
        match e with
        | UiEvent.disableInput => true
        | UiEvent.enableInput => false
        | UiEvent.workerComplete => false
        | _ => d)
      false = false := by
  induction l with
  | nil => rfl
  | cons e rest ih =>
    have he : e ≠ UiEvent.disableInput := h e (List.mem_cons_self e rest)
    have hrest : ∀ e2 ∈ rest, e2 ≠ UiEvent.disableInput :=
      fun e2 h2 => h e2 (List.mem_cons_of_mem e h2)
    cases e with
    | disableInput => exact absurd rfl he
    | echo line => exact ih hrest
    | clearValue => exact ih hrest
    | postRun args => exact ih hrest
    | enableInput => exact ih hrest
    | workerOutput t => exact ih hrest
    | workerComplete => exact ih hrest

/-- C6 (amended): the Controller disables the input before invoking the
matched action and re-enables it when the action's promise resolves; for
the execution command the action resolves upon posting the `run` request,
so the input is disabled through the echo, the clearing and the posting of
the request, but is re-enabled *before* the run's streaming output and
completion events (the `complete` handler re-enables it again).  The
Controller therefore does not keep input disabled until completion, and
further commands can be submitted while a run executes (the Bridge queues
them). -/
theorem c6_input_reenabled_after_post (command : String) (args : List String)
    (outs : List String) :
    disabledAfter ((execRunTimeline command args outs).take 3) = true ∧
    disabledAfter ((execRunTimeline command args outs).take 4) = true ∧
    (∀ k, 5 ≤ k → disabledAfter ((execRunTimeline command args outs).take k) = false) ∧
    (execRunTimeline command args outs).get? 2 = some UiEvent.disableInput ∧
    (execRunTimeline command args outs).get? 3 = some (UiEvent.postRun args) ∧
    (execRunTimeline command args outs).get? 4 = some UiEvent.enableInput := by
  refine ⟨rfl, rfl, ?_, rfl, rfl, rfl⟩
  intro k hk
  obtain ⟨j, rfl⟩ : ∃ j, k = 5 + j := ⟨k - 5, by omega⟩
  have hsplit : (execRunTimeline command args outs).take (5 + j) =
      [UiEvent.echo ("$ " ++ command), UiEvent.clearValue, UiEvent.disableInput,
       UiEvent.postRun args, UiEvent.enableInput]
        ++ (outs.map UiEvent.workerOutput ++ [UiEvent.workerComplete]).take j := by
    rw [List.take_add (execRunTimeline command args outs) 5 j]
    rfl
  rw [hsplit, disabledAfter_append]
  have hd : disabledAfter
      [UiEvent.echo ("$ " ++ command), UiEvent.clearValue, UiEvent.disableInput,
       UiEvent.postRun args, UiEvent.enableInput] = false := rfl
  rw [hd]
  refine foldl_no_disable _ ?_
  intro e he
  have hm := List.mem_of_mem_take he
  rcases List.mem_append.1 hm with hm | hm
  · obtain ⟨t, ht, rfl⟩ := List.mem_map.1 hm
    intro hcontra
    cases hcontra
  · simp only [List.mem_singleton] at hm
    subst hm
    intro hcontra
    cases hcontra
